import Mathlib

/-!
Shallow embedding of the natural-breaks classification engine found in
`src/src/tabs/MapTab.vue` (functions `calculateNaturalBreaks`,
`assignLevelsToFeatures`, and the equal-interval fallback inside
`ensureHexData2Levels`), together with proofs of the specified properties.

JavaScript numbers are modelled in exact arithmetic: a finite JS number is a
rational (`ℚ`), and the special values `NaN`, `Infinity`, `-Infinity` are
separate constructors.  Feature property maps are association lists from
string keys to JS values.
-/

set_option maxHeartbeats 1000000

/-- A JavaScript number: a finite value (modelled exactly as a rational) or
one of the special values `NaN`, `Infinity`, `-Infinity`. -/
inductive JSNum where
  | fin (q : ℚ)
  | nan
  | posInf
  | negInf
  deriving DecidableEq, Repr

/-- `Number.isFinite(v)`. -/
def JSNum.isFinite : JSNum → Bool
  | .fin _ => true
  | _ => false

/-- The finite value carried by a JS number, if any.  `filterMap toFinite`
models `values.filter((v) => Number.isFinite(v))` followed by reading the
retained elements as exact numbers. -/
def JSNum.toFinite : JSNum → Option ℚ
  | .fin q => some q
  | _ => none

/-- `x || 0` applied to a JS number: `NaN` and `0` are falsy and are replaced
by `0`; every other number (including the infinities) is kept. -/
def JSNum.orZero : JSNum → JSNum
  | .nan => .fin 0
  | .fin q => if q = 0 then .fin 0 else .fin q
  | x => x

/-- `v > 0` for a JS number. -/
def JSNum.gtZero : JSNum → Bool
  | .fin q => decide (0 < q)
  | .posInf => true
  | _ => false

/-- `v >= b` where `v` is a JS number and `b` a finite bound. -/
def JSNum.geB : JSNum → ℚ → Bool
  | .fin q, b => decide (b ≤ q)
  | .posInf, _ => true
  | _, _ => false

/-- `v <= b` where `v` is a JS number and `b` a finite bound. -/
def JSNum.leB : JSNum → ℚ → Bool
  | .fin q, b => decide (q ≤ b)
  | .negInf, _ => true
  | _, _ => false

/-- A JSON-like value stored in a feature's `properties` object.
`nonNumeric` stands for any property value whose `Number(...)` coercion is
`NaN` (a non-numeric string, `undefined`, an object, ...); the geographic
data files carry plain numbers, so numeric strings are not modelled. -/
inductive JSVal where
  | num (x : JSNum)
  | nullV
  | nonNumeric (tag : String)
  deriving DecidableEq, Repr

/-- `Number(v)` coercion of a property value. `Number(null) = 0`. -/
def JSVal.toNumber : JSVal → JSNum
  | .num x => x
  | .nullV => .fin 0
  | .nonNumeric _ => .nan

/-- A GeoJSON feature, reduced to the part the classification code touches:
its `properties` object, modelled as an association list. -/
structure Feature where
  props : List (String × JSVal)
  deriving DecidableEq, Repr, Inhabited

/-- Property access `props[key]` on a JS object (first matching key). -/
def lookupProp (props : List (String × JSVal)) (key : String) : Option JSVal :=
  match props with
  | [] => none
  | e :: rest => if e.1 = key then some e.2 else lookupProp rest key

/-- The spread-update `{ ...props, key: v }`: if `key` is present its entry
is overwritten in place, otherwise the new entry is appended at the end. -/
def spreadSet (props : List (String × JSVal)) (key : String) (v : JSVal) :
    List (String × JSVal) :=
  if (lookupProp props key).isSome then
    props.map (fun e => if e.1 = key then (key, v) else e)
  else
    props ++ [(key, v)]

/-- The attribute read by the classification code:
`feature?.properties?.['有偶_相同性別_總計']`. -/
def targetKey : String := "有偶_相同性別_總計"

/-- `const value = Number(feature?.properties?.[targetKey]) || 0`
(`Number(undefined) = NaN` when the key is missing). -/
def featureValue (f : Feature) : JSNum :=
  (match lookupProp f.props targetKey with
   | none => JSNum.nan
   | some v => v.toNumber).orZero

/-- The scan `for (i = 0; i < breaks.length - 1; i++) if (value >= breaks[i]
&& value <= breaks[i+1]) { level = i + 1; break; }` with running index
`base`; returns `0` when no interval matches. -/
def scanLevel (value : JSNum) : List ℚ → ℕ → ℕ
  | b0 :: b1 :: rest, base =>
      if value.geB b0 && value.leB b1 then base + 1
      else scanLevel value (b1 :: rest) (base + 1)
  | _, _ => 0

/-- The level computed for one value: `0` unless `value > 0`, otherwise the
result of the left-to-right interval scan (still `0` if nothing matches). -/
def featureLevel (breaks : List ℚ) (value : JSNum) : ℕ :=
  if value.gtZero then scanLevel value breaks 0 else 0

/-- Per-feature body of `assignLevelsToFeatures`: compute the level and write
`feature.properties = { ...feature.properties, pride_level: level }`. -/
def assignFeatureLevel (breaks : List ℚ) (f : Feature) : Feature :=
  ⟨spreadSet f.props "pride_level"
    (JSVal.num (JSNum.fin (featureLevel breaks (featureValue f))))⟩

/-- `assignLevelsToFeatures(features, breaks)`: returns immediately (leaving
every feature untouched) when `breaks.length < 2`, otherwise rewrites each
feature's properties with the computed `pride_level`. -/
def assignLevelsToFeatures (features : List Feature) (breaks : List ℚ) :
    List Feature :=
  if breaks.length < 2 then features
  else features.map (assignFeatureLevel breaks)

/-- Extended rational: a finite value or `Infinity` (the sentinel used by the
Jenks dynamic program).  `-Infinity`/`NaN` never arise in the tables. -/
inductive ExtQ where
  | fin (q : ℚ)
  | inf
  deriving DecidableEq, Repr

/-- Addition on extended rationals (`Infinity + x = Infinity`). -/
def ExtQ.add : ExtQ → ExtQ → ExtQ
  | .fin a, .fin b => .fin (a + b)
  | _, _ => .inf

/-- Strict comparison on extended rationals (`Infinity < Infinity` is false). -/
def ExtQ.ltB : ExtQ → ExtQ → Bool
  | .fin a, .fin b => decide (a < b)
  | .fin _, .inf => true
  | .inf, _ => false

/-- `sum[i]`: running sum of the first `i` sorted values (1-indexed, `sum[0] = 0`). -/
def sumTable (s : List ℚ) (i : ℕ) : ℚ := (s.take i).sum

/-- `sumSquares[i]`: running sum of squares of the first `i` sorted values. -/
def sumSquaresTable (s : List ℚ) (i : ℕ) : ℚ := ((s.take i).map (fun x => x * x)).sum

/-- The inner loop of the Jenks DP for cell `(item, classes)`: scan the
candidate lower limits `i = item, item - 1, ..., classes`, skip segments whose
running-sum variance is negative, and keep the first strict improvement of
`currentVariance + varianceCombinations[i-1][classes-1]` (`vprev` is the
previous variance column, rows `0..n`).  Returns the final
`(variance, bestLowerClass)` pair, starting from `(Infinity, classes - 1)`. -/
def jenksScan (s : List ℚ) (vprev : List ExtQ) (classes item : ℕ) : ExtQ × ℕ :=
  ((List.range' classes (item + 1 - classes)).reverse).foldl
    (fun acc i =>
      let count : ℚ := (item - i + 1 : ℕ)
      let sumRange := sumTable s item - sumTable s (i - 1)
      let sumSquaresRange := sumSquaresTable s item - sumSquaresTable s (i - 1)
      let currentVariance := sumSquaresRange - sumRange * sumRange / count
      if currentVariance < 0 then acc
      else
        let totalVariance := (ExtQ.fin currentVariance).add (vprev.getD (i - 1) (.fin 0))
        if totalVariance.ltB acc.1 then (totalVariance, i) else acc)
    (ExtQ.inf, classes - 1)

/-- Final contents of column `c` of the two DP tables
(`varianceCombinations[·][c]`, `lowerClassLimits[·][c]`, rows `0..n`) after
all loops of `calculateNaturalBreaks` have run: row 0 keeps its `fill(0)`
value, row 1 is `(0, 1)` from the initialization loop, rows `2 ≤ i < c` keep
the `Infinity` initialization, and rows `c ≤ i ≤ n` hold the DP minimization
(for `c = 1`, the closed-form prefix variance of the base loop). -/
def jenksColumns (s : List ℚ) : ℕ → (List ExtQ × List ℕ)
  | 0 => (List.replicate (s.length + 1) (.fin 0), List.replicate (s.length + 1) 0)
  | 1 =>
      ((List.range (s.length + 1)).map (fun i =>
        if i = 0 then ExtQ.fin 0
        else ExtQ.fin (sumSquaresTable s i - sumTable s i * sumTable s i / (i : ℚ))),
       (List.range (s.length + 1)).map (fun i => if i = 0 then 0 else 1))
  | (c + 2) =>
      let prev := jenksColumns s (c + 1)
      ((List.range (s.length + 1)).map (fun i =>
          if i = 0 then ExtQ.fin 0
          else if i = 1 then ExtQ.fin 0
          else if i < c + 2 then ExtQ.inf
          else (jenksScan s prev.1 (c + 2) i).1),
       (List.range (s.length + 1)).map (fun i =>
          if i = 0 then 0
          else if i = 1 then 1
          else if i < c + 2 then 0
          else (jenksScan s prev.1 (c + 2) i).2))

/-- The value of the cursor `k` in the backtracking loop of
`calculateNaturalBreaks` just before processing `count = classCount - m`:
`k` starts at `sorted.length` and each step moves to
`lowerClassLimits[k][count] - 1`. -/
def jenksBacktrackK (s : List ℚ) (classCount : ℕ) : ℕ → ℕ
  | 0 => s.length
  | m + 1 => (jenksColumns s (classCount - m)).2.getD (jenksBacktrackK s classCount m) 0 - 1

/-- Entry `j` of the `breaks` array after the backtracking loop and the two
explicit writes `breaks[classCount] = sorted[n-1]`, `breaks[0] = sorted[0]`
(the `breaks[0]` write happens last and overwrites the `count = 1` step). -/
def jenksRawBreak (s : List ℚ) (classCount j : ℕ) : ℚ :=
  if j = 0 then s.getD 0 0
  else if j = classCount then s.getD (s.length - 1) 0
  else
    s.getD
      ((jenksColumns s (j + 1)).2.getD
        (jenksBacktrackK s classCount (classCount - j - 1)) 0 - 1)
      0

/-- One step of the final monotonicity loop: each entry strictly below its
(already clamped) predecessor is raised to the predecessor. -/
def clampFrom (prev : ℚ) : List ℚ → List ℚ
  | [] => []
  | x :: xs =>
      let y := if x < prev then prev else x
      y :: clampFrom y xs

/-- The final loop `for (i = 1; ...) if (breaks[i] < breaks[i-1]) breaks[i] =
breaks[i-1]` of `calculateNaturalBreaks`. -/
def enforceNonDecreasing : List ℚ → List ℚ
  | [] => []
  | x :: xs => x :: clampFrom x xs

/-- `Array.from(new Set(sorted))` applied to an already sorted array: adjacent
duplicates collapse, leaving the distinct values in ascending order. -/
def uniqueValuesOf : List ℚ → List ℚ
  | [] => []
  | [a] => [a]
  | a :: b :: rest =>
      if a = b then uniqueValuesOf (b :: rest)
      else a :: uniqueValuesOf (b :: rest)

/-- `calculateNaturalBreaks(values, classCount)` from `MapTab.vue`: `null` on
an empty input or when no value is finite; the padded distinct values when
there are at most `classCount` distinct values; otherwise the Fisher–Jenks
dynamic program followed by backtracking and the monotonicity clamp. -/
def calculateNaturalBreaks (values : List JSNum) (classCount : ℕ) :
    Option (List ℚ) :=
  if values = [] then none
  else
    let sorted := List.insertionSort (· ≤ ·) (values.filterMap JSNum.toFinite)
    if sorted = [] then none
    else
      let uniqueValues := uniqueValuesOf sorted
      if uniqueValues.length ≤ classCount then
        some (uniqueValues ++
          List.replicate (classCount + 1 - uniqueValues.length)
            (uniqueValues.getD (uniqueValues.length - 1) 0))
      else
        some (enforceNonDecreasing
          ((List.range (classCount + 1)).map (jenksRawBreak sorted classCount)))

/-- The equal-interval fallback inside `ensureHexData2Levels`:
`fallbackBreaks = [min]` followed by `min + step * i` for `i = 1..classCount`
with `step = (max - min) / classCount`. -/
def fallbackBreaks (min max : ℚ) (classCount : ℕ) : List ℚ :=
  let step := (max - min) / (classCount : ℚ)
  min :: (List.range' 1 classCount).map (fun i : ℕ => min + step * (i : ℚ))

/-! ### Lemmas about property maps and the spread-update -/

lemma lookupProp_cons (e : String × JSVal) (rest : List (String × JSVal)) (k : String) :
    lookupProp (e :: rest) k = if e.1 = k then some e.2 else lookupProp rest k := rfl

lemma lookupProp_map_replace_ne (p : List (String × JSVal)) (key k : String) (v : JSVal)
    (h : k ≠ key) :
    lookupProp (p.map (fun e => if e.1 = key then (key, v) else e)) k = lookupProp p k := by
  induction p with
  | nil => rfl
  | cons e rest ih =>
    have hkk : ¬ key = k := fun hc => h hc.symm
    rw [List.map_cons, lookupProp_cons, lookupProp_cons]
    by_cases he : e.1 = key
    · have hek : ¬ e.1 = k := by rw [he]; exact hkk
      rw [if_pos he, if_neg hek]
      show (if key = k then some v else
        lookupProp (rest.map (fun e => if e.1 = key then (key, v) else e)) k) = _
      rw [if_neg hkk, ih]
    · rw [if_neg he]
      by_cases hek : e.1 = k
      · rw [if_pos hek, if_pos hek]
      · rw [if_neg hek, if_neg hek, ih]

lemma lookupProp_append_single_ne (p : List (String × JSVal)) (key k : String) (v : JSVal)
    (h : k ≠ key) :
    lookupProp (p ++ [(key, v)]) k = lookupProp p k := by
  induction p with
  | nil =>
    have hkk : ¬ key = k := fun hc => h hc.symm
    simp [lookupProp, hkk]
  | cons e rest ih =>
    rw [List.cons_append, lookupProp_cons, lookupProp_cons, ih]

lemma lookupProp_spreadSet_ne (p : List (String × JSVal)) (key k : String) (v : JSVal)
    (h : k ≠ key) :
    lookupProp (spreadSet p key v) k = lookupProp p k := by
  unfold spreadSet
  by_cases hs : (lookupProp p key).isSome
  · rw [if_pos hs]; exact lookupProp_map_replace_ne p key k v h
  · rw [if_neg hs]; exact lookupProp_append_single_ne p key k v h

lemma lookupProp_map_replace_some (p : List (String × JSVal)) (key : String) (v : JSVal)
    (hs : (lookupProp p key).isSome) :
    lookupProp (p.map (fun e => if e.1 = key then (key, v) else e)) key = some v := by
  induction p with
  | nil => simp [lookupProp] at hs
  | cons e rest ih =>
    by_cases he : e.1 = key
    · simp [lookupProp, he]
    · have hs' : (lookupProp rest key).isSome := by simpa [lookupProp, he] using hs
      simp [lookupProp, he, ih hs']

lemma lookupProp_append_single_self (p : List (String × JSVal)) (key : String) (v : JSVal)
    (hn : lookupProp p key = none) :
    lookupProp (p ++ [(key, v)]) key = some v := by
  induction p with
  | nil => simp [lookupProp]
  | cons e rest ih =>
    by_cases he : e.1 = key
    · simp [lookupProp, he] at hn
    · have hn' : lookupProp rest key = none := by simpa [lookupProp, he] using hn
      simp [lookupProp, he, ih hn']

lemma lookupProp_spreadSet_self (p : List (String × JSVal)) (key : String) (v : JSVal) :
    lookupProp (spreadSet p key v) key = some v := by
  unfold spreadSet
  by_cases hs : (lookupProp p key).isSome
  · rw [if_pos hs]; exact lookupProp_map_replace_some p key v hs
  · rw [if_neg hs]
    exact lookupProp_append_single_self p key v (Option.not_isSome_iff_eq_none.mp hs)

lemma map_replace_of_none (p : List (String × JSVal)) (key : String) (v : JSVal)
    (hn : lookupProp p key = none) :
    p.map (fun e => if e.1 = key then (key, v) else e) = p := by
  induction p with
  | nil => rfl
  | cons e rest ih =>
    by_cases he : e.1 = key
    · simp [lookupProp, he] at hn
    · have hn' : lookupProp rest key = none := by simpa [lookupProp, he] using hn
      simp [he, ih hn']

lemma spreadSet_spreadSet_same (p : List (String × JSVal)) (key : String) (v : JSVal) :
    spreadSet (spreadSet p key v) key v = spreadSet p key v := by
  have h1 : lookupProp (spreadSet p key v) key = some v := lookupProp_spreadSet_self p key v
  have h2 : (lookupProp (spreadSet p key v) key).isSome := by rw [h1]; rfl
  rw [show spreadSet (spreadSet p key v) key v
      = (spreadSet p key v).map (fun e => if e.1 = key then (key, v) else e) from by
    rw [spreadSet, if_pos h2]]
  by_cases hs : (lookupProp p key).isSome
  · have hdef : spreadSet p key v = p.map (fun e => if e.1 = key then (key, v) else e) := by
      rw [spreadSet, if_pos hs]
    rw [hdef, List.map_map]
    refine List.map_congr_left ?_
    intro e _
    by_cases he : e.1 = key <;> simp [Function.comp, he]
  · have hn : lookupProp p key = none := Option.not_isSome_iff_eq_none.mp hs
    have hdef : spreadSet p key v = p ++ [(key, v)] := by rw [spreadSet, if_neg hs]
    rw [hdef, List.map_append, map_replace_of_none p key v hn]
    simp

lemma targetKey_ne_pride : targetKey ≠ "pride_level" := by decide

lemma featureValue_assignFeatureLevel (breaks : List ℚ) (f : Feature) :
    featureValue (assignFeatureLevel breaks f) = featureValue f := by
  unfold featureValue assignFeatureLevel
  rw [lookupProp_spreadSet_ne _ _ _ _ targetKey_ne_pride]

lemma assignFeatureLevel_idem (breaks : List ℚ) (f : Feature) :
    assignFeatureLevel breaks (assignFeatureLevel breaks f) = assignFeatureLevel breaks f := by
  conv_lhs => rw [assignFeatureLevel]
  rw [featureValue_assignFeatureLevel]
  show Feature.mk (spreadSet (spreadSet f.props "pride_level" _) "pride_level" _) = _
  rw [spreadSet_spreadSet_same]
  rfl

lemma assignLevelsToFeatures_length (features : List Feature) (breaks : List ℚ) :
    (assignLevelsToFeatures features breaks).length = features.length := by
  unfold assignLevelsToFeatures
  by_cases h : breaks.length < 2
  · rw [if_pos h]
  · rw [if_neg h, List.length_map]

/-- The `pride_level` entry written by `assignLevelsToFeatures` for the
feature at position `j`, when the breaks array is long enough to be used. -/
lemma assign_pride_lookup (features : List Feature) (breaks : List ℚ) (j : ℕ)
    (h2 : 2 ≤ breaks.length) (hj : j < features.length) :
    lookupProp ((assignLevelsToFeatures features breaks).getD j default).props "pride_level"
      = some (JSVal.num (JSNum.fin
          (featureLevel breaks (featureValue (features.getD j default))))) := by
  unfold assignLevelsToFeatures
  rw [if_neg (by omega)]
  rw [List.getD_eq_getElem _ _ (by simpa using hj), List.getElem_map,
    ← List.getD_eq_getElem features default hj]
  exact lookupProp_spreadSet_self _ _ _

/-- C9: `assignLevelsToFeatures` is idempotent — re-running it with the same
breaks on its own output reproduces exactly the same feature list. -/
theorem c9_assign_idempotent (features : List Feature) (breaks : List ℚ) :
    assignLevelsToFeatures (assignLevelsToFeatures features breaks) breaks
      = assignLevelsToFeatures features breaks := by
  unfold assignLevelsToFeatures
  by_cases h : breaks.length < 2
  · rw [if_pos h, if_pos h]
  · rw [if_neg h, if_neg h, List.map_map]
    refine List.map_congr_left ?_
    intro f _
    exact assignFeatureLevel_idem breaks f

/-- C10: `assignLevelsToFeatures` changes no property other than
`pride_level` — for every feature position and every other key, the looked-up
value is unchanged. -/
theorem c10_assign_frame (features : List Feature) (breaks : List ℚ) (j : ℕ) (k : String)
    (hj : j < features.length) (hk : k ≠ "pride_level") :
    lookupProp ((assignLevelsToFeatures features breaks).getD j default).props k
      = lookupProp (features.getD j default).props k := by
  unfold assignLevelsToFeatures
  by_cases h : breaks.length < 2
  · rw [if_pos h]
  · rw [if_neg h, List.getD_eq_getElem _ _ (by simpa using hj), List.getElem_map,
      ← List.getD_eq_getElem features default hj]
    exact lookupProp_spreadSet_ne _ _ _ _ hk

theorem c10_assign_frame_witness :
    lookupProp ((assignLevelsToFeatures [⟨[("a", JSVal.num (JSNum.fin 1))]⟩] []).getD 0
        default).props "a"
      = lookupProp (([⟨[("a", JSVal.num (JSNum.fin 1))]⟩].getD 0 default) : Feature).props "a" :=
  c10_assign_frame [⟨[("a", JSVal.num (JSNum.fin 1))]⟩] [] 0 "a" (by simp) (by decide)

/-! ### Lemmas about the interval scan -/

lemma pairwise_le_getLast :
    ∀ (l : List ℚ), List.Pairwise (· ≤ ·) l → ∀ M, l.getLast? = some M → ∀ b ∈ l, b ≤ M := by
  intro l
  induction l with
  | nil => intro _ M hM; simp at hM
  | cons a t ih =>
    intro hp M hM b hb
    cases t with
    | nil =>
      simp at hM hb
      rw [hb, ← hM]
    | cons c t' =>
      rw [List.getLast?_cons_cons] at hM
      rcases List.mem_cons.mp hb with hba | hbt
      · obtain ⟨hne, hMeq⟩ := List.mem_getLast?_eq_getLast (Option.mem_def.mpr hM)
        have hM_mem : M ∈ c :: t' := hMeq ▸ List.getLast_mem hne
        rw [hba]
        exact (List.pairwise_cons.mp hp).1 M hM_mem
      · exact ih (List.pairwise_cons.mp hp).2 M hM b hbt

lemma scanLevel_zero_of_gt (q : ℚ) (bs : List ℚ) (h : ∀ b ∈ bs, ¬ q ≤ b) :
    ∀ base, scanLevel (JSNum.fin q) bs base = 0 := by
  induction bs with
  | nil => intro _; rfl
  | cons b0 t ih =>
    intro base
    cases t with
    | nil => rfl
    | cons b1 t' =>
      have hb1 : JSNum.leB (JSNum.fin q) b1 = false := by
        simp [JSNum.leB]
        exact not_le.mp (h b1 (by simp))
      rw [scanLevel, hb1, Bool.and_false, if_neg (by simp)]
      exact ih (fun b hb => h b (List.mem_cons_of_mem b0 hb)) (base + 1)

lemma scanLevel_getD (q : ℚ) :
    ∀ (bs : List ℚ), List.Pairwise (· < ·) bs → ∀ base i, 1 ≤ i → i < bs.length →
      q = bs.getD i 0 → scanLevel (JSNum.fin q) bs base = base + i := by
  intro bs
  induction bs with
  | nil => intro _ base i _ h2 _; simp at h2
  | cons b0 t ih =>
    intro hp base i h1 h2 hq
    cases t with
    | nil => simp at h2; omega
    | cons b1 t' =>
      match i, h1 with
      | 1, _ =>
        have hq1 : q = b1 := hq
        have hlt : b0 < b1 := (List.pairwise_cons.mp hp).1 b1 (by simp)
        have hge : JSNum.geB (JSNum.fin q) b0 = true := by
          simp [JSNum.geB, hq1]
          exact le_of_lt hlt
        have hle : JSNum.leB (JSNum.fin q) b1 = true := by simp [JSNum.leB, hq1]
        rw [scanLevel, hge, hle]
        simp
      | (m + 2), _ =>
        have hpp : List.Pairwise (· < ·) (b1 :: t') := (List.pairwise_cons.mp hp).2
        have hq' : q = (b1 :: t').getD (m + 1) 0 := hq
        have hlen : m + 1 < (b1 :: t').length := by
          simp only [List.length_cons] at h2 ⊢
          omega
        have hb1q : b1 < q := by
          have hg := List.pairwise_iff_getElem.mp hpp 0 (m + 1) (by simp) hlen (by omega)
          rw [hq', List.getD_eq_getElem _ _ hlen]
          simpa using hg
        have hle : JSNum.leB (JSNum.fin q) b1 = false := by
          simp [JSNum.leB]
          exact hb1q
        rw [scanLevel, hle, Bool.and_false, if_neg (by simp)]
        rw [ih hpp (base + 1) (m + 1) (by omega) hlen hq']
        omega

/-- C3 counterexample: with non-decreasing breaks `[1, 2, 3]` and a feature
whose positive value `4` exceeds the last break, the assigned level is `0`,
not the last class `breaks.length - 1 = 2` — there is no clamping. -/
theorem c3_counterexample :
    lookupProp ((assignLevelsToFeatures [⟨[(targetKey, JSVal.num (JSNum.fin 4))]⟩]
        [1, 2, 3]).getD 0 default).props "pride_level"
      = some (JSVal.num (JSNum.fin 0)) ∧
    lookupProp ((assignLevelsToFeatures [⟨[(targetKey, JSVal.num (JSNum.fin 4))]⟩]
        [1, 2, 3]).getD 0 default).props "pride_level"
      ≠ some (JSVal.num (JSNum.fin ((([(1 : ℚ), 2, 3].length - 1 : ℕ)) : ℚ))) := by
  constructor <;> decide

/-- C3 (amended): when the breaks are non-decreasing with at least two
entries and a feature's finite positive value strictly exceeds the last
break, no interval matches and `assignLevelsToFeatures` assigns level `0`
(the code has no clamp to the last class). -/
theorem c3_above_last_break (features : List Feature) (breaks : List ℚ) (j : ℕ) (q M : ℚ)
    (h2 : 2 ≤ breaks.length) (hmono : List.Chain' (· ≤ ·) breaks)
    (hj : j < features.length)
    (hval : featureValue (features.getD j default) = JSNum.fin q) (_hpos : 0 < q)
    (hlast : breaks.getLast? = some M) (hgt : M < q) :
    lookupProp ((assignLevelsToFeatures features breaks).getD j default).props "pride_level"
      = some (JSVal.num (JSNum.fin 0)) := by
  rw [assign_pride_lookup features breaks j h2 hj, hval]
  have hb : ∀ b ∈ breaks, ¬ q ≤ b := by
    intro b hbm
    have hbM : b ≤ M :=
      pairwise_le_getLast breaks (List.chain'_iff_pairwise.mp hmono) M hlast b hbm
    exact not_le.mpr (lt_of_le_of_lt hbM hgt)
  unfold featureLevel
  rw [scanLevel_zero_of_gt q breaks hb 0]
  simp

theorem c3_above_last_break_witness :
    lookupProp ((assignLevelsToFeatures [⟨[(targetKey, JSVal.num (JSNum.fin 9))]⟩]
        [1, 2, 3]).getD 0 default).props "pride_level"
      = some (JSVal.num (JSNum.fin 0)) :=
  c3_above_last_break [⟨[(targetKey, JSVal.num (JSNum.fin 9))]⟩] [1, 2, 3] 0 9 3
    (by norm_num) (by norm_num [List.chain'_cons]) (by norm_num) (by decide) (by norm_num)
    (by decide) (by norm_num)

/-- C4 counterexample: with the non-decreasing breaks `[1, 5, 5, 9]` (ties
are produced by the degenerate path) and a feature whose positive value `5`
equals the interior break at index `2`, the assigned level is `1`, not `2` —
the scan stops at the first interval `[1, 5]` containing the value. -/
theorem c4_counterexample :
    lookupProp ((assignLevelsToFeatures [⟨[(targetKey, JSVal.num (JSNum.fin 5))]⟩]
        [1, 5, 5, 9]).getD 0 default).props "pride_level"
      = some (JSVal.num (JSNum.fin 1)) ∧
    lookupProp ((assignLevelsToFeatures [⟨[(targetKey, JSVal.num (JSNum.fin 5))]⟩]
        [1, 5, 5, 9]).getD 0 default).props "pride_level"
      ≠ some (JSVal.num (JSNum.fin 2)) := by
  constructor <;> decide

/-- C4 (amended): when the breaks are strictly increasing (no ties), a
feature whose positive value equals the interior break at index `i`
(`0 < i < breaks.length - 1`) is assigned level `i`, the lower-numbered of
the two adjacent classes, because the scan stops at the first matching
interval. -/
theorem c4_interior_break_level (features : List Feature) (breaks : List ℚ) (j i : ℕ) (q : ℚ)
    (hstrict : List.Chain' (· < ·) breaks) (hj : j < features.length)
    (h0 : 0 < i) (hi : i < breaks.length - 1)
    (hval : featureValue (features.getD j default) = JSNum.fin q)
    (hq : q = breaks.getD i 0) (hpos : 0 < q) :
    lookupProp ((assignLevelsToFeatures features breaks).getD j default).props "pride_level"
      = some (JSVal.num (JSNum.fin (i : ℚ))) := by
  have h2 : 2 ≤ breaks.length := by omega
  rw [assign_pride_lookup features breaks j h2 hj, hval]
  unfold featureLevel
  have hgt : JSNum.gtZero (JSNum.fin q) = true := by simp [JSNum.gtZero, hpos]
  rw [hgt, if_pos rfl,
    scanLevel_getD q breaks (List.chain'_iff_pairwise.mp hstrict) 0 i h0 (by omega) hq]
  simp

theorem c4_interior_break_level_witness :
    lookupProp ((assignLevelsToFeatures [⟨[(targetKey, JSVal.num (JSNum.fin 5))]⟩]
        [1, 5, 9]).getD 0 default).props "pride_level"
      = some (JSVal.num (JSNum.fin ((1 : ℕ) : ℚ))) :=
  c4_interior_break_level [⟨[(targetKey, JSVal.num (JSNum.fin 5))]⟩] [1, 5, 9] 0 1 5
    (by norm_num [List.chain'_cons]) (by norm_num) (by norm_num) (by norm_num)
    (by decide) (by norm_num) (by norm_num)

/-- C8 counterexample: with `breaks = []` the function returns without
touching the features at all, so a feature with a missing attribute and a
stale `pride_level` of `3` keeps level `3` instead of receiving level `0` —
the claim fails for breaks of length `< 2`. -/
theorem c8_counterexample :
    lookupProp ((assignLevelsToFeatures [⟨[("pride_level", JSVal.num (JSNum.fin 3))]⟩]
        []).getD 0 default).props "pride_level"
      = some (JSVal.num (JSNum.fin 3)) ∧
    lookupProp ((assignLevelsToFeatures [⟨[("pride_level", JSVal.num (JSNum.fin 3))]⟩]
        []).getD 0 default).props "pride_level"
      ≠ some (JSVal.num (JSNum.fin 0)) := by
  constructor <;> decide

/-- C8 (amended): provided `breaks` has at least two entries (otherwise the
function returns without modifying the features), every feature whose
attribute is missing, non-numeric, or coerces to a value not strictly
greater than zero — i.e. whose coerced value fails the `value > 0` test —
is assigned level `0`, whatever the breaks are. -/
theorem c8_nonpositive_level_zero (features : List Feature) (breaks : List ℚ) (j : ℕ)
    (h2 : 2 ≤ breaks.length) (hj : j < features.length)
    (hnp : (featureValue (features.getD j default)).gtZero = false) :
    lookupProp ((assignLevelsToFeatures features breaks).getD j default).props "pride_level"
      = some (JSVal.num (JSNum.fin 0)) := by
  rw [assign_pride_lookup features breaks j h2 hj]
  unfold featureLevel
  rw [hnp]
  simp

theorem c8_nonpositive_level_zero_witness :
    lookupProp ((assignLevelsToFeatures [⟨[]⟩] [0, 1]).getD 0 default).props "pride_level"
      = some (JSVal.num (JSNum.fin 0)) :=
  c8_nonpositive_level_zero [⟨[]⟩] [0, 1] 0 (by norm_num) (by norm_num) (by decide)

/-- C6: `calculateNaturalBreaks` returns `null` on an empty observation
sequence, and likewise when no observation is finite (the finite-filter
leaves nothing); being a total function, it raises no exception. -/
theorem c6_empty_input_none (values : List JSNum) (classCount : ℕ)
    (h : values = [] ∨ ∀ v ∈ values, v.isFinite = false) :
    calculateNaturalBreaks values classCount = none := by
  rcases h with h | h
  · simp [calculateNaturalBreaks, h]
  · by_cases hv : values = []
    · simp [calculateNaturalBreaks, hv]
    · have hfm : values.filterMap JSNum.toFinite = [] := by
        rw [List.filterMap_eq_nil_iff]
        intro v hvm
        have hfin := h v hvm
        cases v <;> simp [JSNum.isFinite] at hfin ⊢ <;> rfl
      unfold calculateNaturalBreaks
      rw [if_neg hv, hfm]
      rfl

theorem c6_empty_input_none_witness :
    calculateNaturalBreaks [JSNum.nan, JSNum.posInf] 6 = none :=
  c6_empty_input_none [JSNum.nan, JSNum.posInf] 6 (Or.inr (by decide))

/-! ### Lemmas about `uniqueValuesOf` (Set on a sorted array) -/

lemma uniqueValuesOf_head? : ∀ (a : ℚ) (t : List ℚ),
    (uniqueValuesOf (a :: t)).head? = some a := by
  intro a t
  induction t generalizing a with
  | nil => rfl
  | cons b r ih =>
    by_cases hab : a = b
    · rw [uniqueValuesOf, if_pos hab, hab]
      exact ih b
    · rw [uniqueValuesOf, if_neg hab]
      rfl

lemma uniqueValuesOf_ne_nil (a : ℚ) (t : List ℚ) : uniqueValuesOf (a :: t) ≠ [] := by
  intro hc
  have := uniqueValuesOf_head? a t
  rw [hc] at this
  simp at this

lemma uniqueValuesOf_getLast? : ∀ (l : List ℚ), (uniqueValuesOf l).getLast? = l.getLast? := by
  intro l
  induction l with
  | nil => rfl
  | cons a t ih =>
    cases t with
    | nil => rfl
    | cons b r =>
      by_cases hab : a = b
      · rw [uniqueValuesOf, if_pos hab, ih, List.getLast?_cons_cons]
      · rw [uniqueValuesOf, if_neg hab, List.getLast?_cons_cons]
        obtain ⟨u, us, hu⟩ := List.exists_cons_of_ne_nil (uniqueValuesOf_ne_nil b r)
        rw [← ih, hu, List.getLast?_cons_cons]

lemma uniqueValuesOf_mem : ∀ (l : List ℚ) (x : ℚ), x ∈ uniqueValuesOf l ↔ x ∈ l := by
  intro l
  induction l with
  | nil => intro x; rfl
  | cons a t ih =>
    intro x
    cases t with
    | nil => rfl
    | cons b r =>
      by_cases hab : a = b
      · rw [uniqueValuesOf, if_pos hab, ih x, hab]
        simp
      · rw [uniqueValuesOf, if_neg hab]
        simp [ih x]

lemma uniqueValuesOf_chain_lt : ∀ (l : List ℚ), List.Sorted (· ≤ ·) l →
    List.Chain' (· < ·) (uniqueValuesOf l) := by
  intro l
  induction l with
  | nil => intro _; trivial
  | cons a t ih =>
    intro hs
    cases t with
    | nil => exact List.chain'_singleton a
    | cons b r =>
      by_cases hab : a = b
      · rw [uniqueValuesOf, if_pos hab]
        exact ih hs.tail
      · rw [uniqueValuesOf, if_neg hab]
        rw [List.chain'_cons']
        refine ⟨?_, ih hs.tail⟩
        intro y hy
        rw [uniqueValuesOf_head? b r] at hy
        have hab' : a < b := lt_of_le_of_ne (List.rel_of_sorted_cons hs b (by simp)) hab
        simp at hy
        rw [← hy]
        exact hab'

lemma uniqueValuesOf_nodup (l : List ℚ) (hs : List.Sorted (· ≤ ·) l) :
    (uniqueValuesOf l).Nodup := by
  have hp : List.Pairwise (· < ·) (uniqueValuesOf l) :=
    List.chain'_iff_pairwise.mp (uniqueValuesOf_chain_lt l hs)
  exact hp.imp ne_of_lt

/-! ### Lemmas about the final monotonicity clamp -/

lemma clampFrom_length (p : ℚ) : ∀ (l : List ℚ), (clampFrom p l).length = l.length := by
  intro l
  induction l generalizing p with
  | nil => rfl
  | cons x xs ih => rw [clampFrom, List.length_cons, List.length_cons, ih]

lemma chain_clampFrom (p : ℚ) : ∀ (l : List ℚ), List.Chain (· ≤ ·) p (clampFrom p l) := by
  intro l
  induction l generalizing p with
  | nil => exact List.Chain.nil
  | cons x xs ih =>
    rw [clampFrom]
    refine List.Chain.cons ?_ (ih (if x < p then p else x))
    by_cases hxp : x < p
    · rw [if_pos hxp]
    · rw [if_neg hxp]
      exact le_of_not_lt hxp

lemma clampFrom_getLast? (M : ℚ) :
    ∀ (l : List ℚ) (p : ℚ), l ≠ [] → l.getLast? = some M → (∀ x ∈ l, x ≤ M) → p ≤ M →
      (clampFrom p l).getLast? = some M := by
  intro l
  induction l with
  | nil => intro p hne _ _ _; exact absurd rfl hne
  | cons x xs ih =>
    intro p _ hlast hbound hp
    cases xs with
    | nil =>
      simp at hlast
      rw [clampFrom, clampFrom]
      simp only [List.getLast?_singleton, Option.some.injEq]
      by_cases hxp : x < p
      · rw [if_pos hxp]
        rw [hlast] at hxp
        exact absurd hxp (not_lt.mpr hp)
      · rw [if_neg hxp, hlast]
    | cons y ys =>
      rw [List.getLast?_cons_cons] at hlast
      rw [clampFrom]
      have hrec := ih (if x < p then p else x) (by simp) hlast
        (fun z hz => hbound z (List.mem_cons_of_mem x hz))
        (by
          by_cases hxp : x < p
          · rw [if_pos hxp]; exact hp
          · rw [if_neg hxp]; exact hbound x (by simp))
      obtain ⟨u, us, hu⟩ := List.exists_cons_of_ne_nil
        (show clampFrom (if x < p then p else x) (y :: ys) ≠ [] by
          intro hc
          have := clampFrom_length (if x < p then p else x) (y :: ys)
          rw [hc] at this
          simp at this)
      rw [hu] at hrec ⊢
      rw [List.getLast?_cons_cons]
      exact hrec

/-! ### Small auxiliary lemmas for the break-shape theorems -/

lemma getD_last_of_getLast? (l : List ℚ) (M : ℚ) (h : l.getLast? = some M) :
    l.getD (l.length - 1) 0 = M := by
  rw [List.getD_eq_getElem?_getD, ← List.getLast?_eq_getElem?, h]
  rfl

lemma getD_le_of_forall_le (s : List ℚ) (M : ℚ) (h : ∀ x ∈ s, x ≤ M) (h0 : 0 ≤ M)
    (idx : ℕ) : s.getD idx 0 ≤ M := by
  by_cases hidx : idx < s.length
  · rw [List.getD_eq_getElem _ _ hidx]
    exact h _ (List.getElem_mem hidx)
  · rw [List.getD_eq_default _ _ (by omega)]
    exact h0

lemma chain'_le_replicate (n : ℕ) (M : ℚ) : List.Chain' (· ≤ ·) (List.replicate n M) := by
  induction n with
  | zero => trivial
  | succ k ih =>
    rw [List.replicate_succ, List.chain'_cons']
    refine ⟨?_, ih⟩
    intro y hy
    cases k with
    | zero => simp at hy
    | succ k' =>
      rw [List.replicate_succ] at hy
      simp at hy
      rw [hy]

lemma getLast?_cons_of_ne_nil (x : ℚ) (t : List ℚ) (h : t ≠ []) :
    (x :: t).getLast? = t.getLast? := by
  obtain ⟨y, ys, rfl⟩ := List.exists_cons_of_ne_nil h
  exact List.getLast?_cons_cons

lemma getLast?_replicate_succ (k : ℕ) (M : ℚ) :
    (List.replicate (k + 1) M).getLast? = some M := by
  rw [List.replicate_succ', List.getLast?_concat]

lemma exists_cons_of_head? (l : List ℚ) (a : ℚ) (h : l.head? = some a) :
    ∃ t, l = a :: t := by
  cases l with
  | nil => simp at h
  | cons x xs =>
    simp at h
    exact ⟨xs, by rw [h]⟩

/-- C1: for a non-empty list of finite positive observations and any
`classCount ≥ 1`, `calculateNaturalBreaks` returns exactly `classCount + 1`
values, non-decreasing, starting at the minimum observation and ending at
the maximum observation. -/
theorem c1_breaks_shape (vals : List ℚ) (classCount : ℕ) (hne : vals ≠ [])
    (hpos : ∀ x ∈ vals, 0 < x) (hK : 1 ≤ classCount) :
    ∃ breaks : List ℚ,
      calculateNaturalBreaks (vals.map JSNum.fin) classCount = some breaks ∧
      breaks.length = classCount + 1 ∧
      List.Chain' (· ≤ ·) breaks ∧
      (∃ m, breaks.head? = some m ∧ m ∈ vals ∧ ∀ x ∈ vals, m ≤ x) ∧
      (∃ M, breaks.getLast? = some M ∧ M ∈ vals ∧ ∀ x ∈ vals, x ≤ M) := by
  have hfm : (vals.map JSNum.fin).filterMap JSNum.toFinite = vals := by
    rw [List.filterMap_map]
    have hcomp : (JSNum.toFinite ∘ JSNum.fin) = some := rfl
    rw [hcomp, List.filterMap_some]
  set s := List.insertionSort (· ≤ ·) vals with hs_def
  have hperm : s.Perm vals := List.perm_insertionSort _ _
  have hsorted : List.Sorted (· ≤ ·) s := List.sorted_insertionSort _ _
  have hsmem : ∀ x, x ∈ s ↔ x ∈ vals := fun x => hperm.mem_iff
  have hsne : s ≠ [] := by
    intro hc
    apply hne
    have hlen := hperm.length_eq
    rw [hc] at hlen
    exact List.eq_nil_of_length_eq_zero hlen.symm
  obtain ⟨a, t, hat⟩ := List.exists_cons_of_ne_nil hsne
  have hmin_mem : a ∈ vals := (hsmem a).mp (by rw [hat]; simp)
  have hmin_le : ∀ x ∈ vals, a ≤ x := by
    intro x hx
    have hxs : x ∈ s := (hsmem x).mpr hx
    rw [hat] at hxs
    rcases List.mem_cons.mp hxs with h | h
    · rw [h]
    · exact List.rel_of_sorted_cons (hat ▸ hsorted) x h
  obtain ⟨M, hMlast⟩ : ∃ M, s.getLast? = some M := by
    refine ⟨s.getLast hsne, List.getLast?_eq_getLast_of_ne_nil hsne⟩
  have hM_mem : M ∈ vals := by
    obtain ⟨hne2, hMeq⟩ := List.mem_getLast?_eq_getLast (Option.mem_def.mpr hMlast)
    exact (hsmem M).mp (hMeq ▸ List.getLast_mem hne2)
  have hboundS : ∀ x ∈ s, x ≤ M := pairwise_le_getLast s hsorted M hMlast
  have hM_ge : ∀ x ∈ vals, x ≤ M := fun x hx => hboundS x ((hsmem x).mpr hx)
  have hM0 : 0 ≤ M := le_of_lt (hpos M hM_mem)
  have hmapne : vals.map JSNum.fin ≠ [] := by
    intro hc
    exact hne (List.map_eq_nil_iff.mp hc)
  by_cases hu : (uniqueValuesOf s).length ≤ classCount
  · -- degenerate path: distinct values padded with the maximum
    have hcalc : calculateNaturalBreaks (vals.map JSNum.fin) classCount
        = some (uniqueValuesOf s ++
            List.replicate (classCount + 1 - (uniqueValuesOf s).length)
              ((uniqueValuesOf s).getD ((uniqueValuesOf s).length - 1) 0)) := by
      unfold calculateNaturalBreaks
      rw [if_neg hmapne]
      simp only [hfm, ← hs_def]
      rw [if_neg hsne, if_pos hu]
    have hdlast : (uniqueValuesOf s).getLast? = some M := by
      rw [uniqueValuesOf_getLast? s, hMlast]
    have hdM : (uniqueValuesOf s).getD ((uniqueValuesOf s).length - 1) 0 = M :=
      getD_last_of_getLast? _ M hdlast
    obtain ⟨ds, hds⟩ := exists_cons_of_head? (uniqueValuesOf s) a
      (by rw [hat]; exact uniqueValuesOf_head? a t)
    obtain ⟨mpad, hmpad⟩ : ∃ mpad, classCount + 1 - (uniqueValuesOf s).length = mpad + 1 := by
      refine ⟨classCount - (uniqueValuesOf s).length, by omega⟩
    refine ⟨_, hcalc, ?_, ?_, ?_, ?_⟩
    · rw [List.length_append, List.length_replicate]
      have hd1 : 1 ≤ (uniqueValuesOf s).length := by rw [hds]; simp
      omega
    · rw [hdM]
      rw [List.chain'_append]
      refine ⟨(uniqueValuesOf_chain_lt s hsorted).imp (fun a b hab => le_of_lt hab), ?_, ?_⟩
      · exact chain'_le_replicate _ M
      · intro x hx y hy
        rw [hdlast] at hx
        simp at hx
        rw [hmpad] at hy
        rw [List.replicate_succ] at hy
        simp at hy
        rw [← hx, ← hy]
    · refine ⟨a, ?_, hmin_mem, hmin_le⟩
      rw [hds, List.cons_append]
      rfl
    · refine ⟨M, ?_, hM_mem, hM_ge⟩
      rw [hdM, List.getLast?_append_of_ne_nil, hmpad, getLast?_replicate_succ]
      rw [hmpad]
      simp [List.replicate_succ]
  · -- general path: Jenks DP, backtracking, and the monotonicity clamp
    have hcalc : calculateNaturalBreaks (vals.map JSNum.fin) classCount
        = some (enforceNonDecreasing
            ((List.range (classCount + 1)).map (jenksRawBreak s classCount))) := by
      unfold calculateNaturalBreaks
      rw [if_neg hmapne]
      simp only [hfm, ← hs_def]
      rw [if_neg hsne, if_neg hu]
    have hbreak0 : jenksRawBreak s classCount 0 = a := by
      rw [jenksRawBreak, if_pos rfl, hat]
      rfl
    have hbreakK : jenksRawBreak s classCount classCount = M := by
      rw [jenksRawBreak, if_neg (by omega), if_pos rfl]
      exact getD_last_of_getLast? s M hMlast
    have hrawle : ∀ j, jenksRawBreak s classCount j ≤ M := by
      intro j
      unfold jenksRawBreak
      split_ifs <;> exact getD_le_of_forall_le s M hboundS hM0 _
    set L := (List.range (classCount + 1)).map (jenksRawBreak s classCount) with hL_def
    have hLlen : L.length = classCount + 1 := by
      rw [hL_def, List.length_map, List.length_range]
    have hLbound : ∀ y ∈ L, y ≤ M := by
      intro y hy
      rw [hL_def] at hy
      obtain ⟨j, _, rfl⟩ := List.mem_map.mp hy
      exact hrawle j
    have hLhead : L.head? = some a := by
      rw [hL_def, List.range_succ_eq_map, List.map_cons, List.head?_cons, hbreak0]
    have hLlast : L.getLast? = some M := by
      rw [hL_def, List.range_succ, List.map_append, List.map_singleton,
        List.getLast?_concat, hbreakK]
    obtain ⟨Lt, hLt⟩ := exists_cons_of_head? L a hLhead
    have hLtne : Lt ≠ [] := by
      intro hc
      rw [hLt, hc] at hLlen
      simp at hLlen
      omega
    have henf : enforceNonDecreasing L = a :: clampFrom a Lt := by
      rw [hLt]
      rfl
    refine ⟨_, hcalc, ?_, ?_, ?_, ?_⟩
    · rw [henf, List.length_cons, clampFrom_length]
      rw [hLt] at hLlen
      simpa using hLlen
    · rw [henf]
      show List.Chain (· ≤ ·) a (clampFrom a Lt)
      exact chain_clampFrom a Lt
    · exact ⟨a, by rw [henf]; rfl, hmin_mem, hmin_le⟩
    · refine ⟨M, ?_, hM_mem, hM_ge⟩
      have hclne : clampFrom a Lt ≠ [] := by
        intro hc
        have := clampFrom_length a Lt
        rw [hc] at this
        exact hLtne (List.eq_nil_of_length_eq_zero this.symm)
      rw [henf, getLast?_cons_of_ne_nil a _ hclne]
      refine clampFrom_getLast? M Lt a hLtne ?_ ?_ ?_
      · rw [hLt] at hLlast
        rw [← getLast?_cons_of_ne_nil a Lt hLtne, hLlast]
      · intro z hz
        exact hLbound z (by rw [hLt]; exact List.mem_cons_of_mem a hz)
      · exact hLbound a (by rw [hLt]; simp)

theorem c1_breaks_shape_witness :
    ∃ breaks : List ℚ,
      calculateNaturalBreaks ([(2 : ℚ), 1].map JSNum.fin) 1 = some breaks ∧
      breaks.length = 1 + 1 ∧
      List.Chain' (· ≤ ·) breaks ∧
      (∃ m, breaks.head? = some m ∧ m ∈ [(2 : ℚ), 1] ∧ ∀ x ∈ [(2 : ℚ), 1], m ≤ x) ∧
      (∃ M, breaks.getLast? = some M ∧ M ∈ [(2 : ℚ), 1] ∧ ∀ x ∈ [(2 : ℚ), 1], x ≤ M) :=
  c1_breaks_shape [(2 : ℚ), 1] 1 (by decide) (by norm_num) (by norm_num)

lemma uniqueValuesOf_length_dedup (vals : List ℚ) :
    (uniqueValuesOf (List.insertionSort (· ≤ ·) vals)).length = vals.dedup.length := by
  have hperm : (List.insertionSort (· ≤ ·) vals).Perm vals := List.perm_insertionSort _ _
  have hnd1 : (uniqueValuesOf (List.insertionSort (· ≤ ·) vals)).Nodup :=
    uniqueValuesOf_nodup _ (List.sorted_insertionSort _ _)
  have hnd2 : vals.dedup.Nodup := List.nodup_dedup vals
  have hmemiff : ∀ x, x ∈ uniqueValuesOf (List.insertionSort (· ≤ ·) vals) ↔ x ∈ vals.dedup := by
    intro x
    rw [uniqueValuesOf_mem, List.mem_dedup]
    exact hperm.mem_iff
  exact ((List.perm_ext_iff_of_nodup hnd1 hnd2).mpr hmemiff).length_eq

/-- C5: when the number of distinct observations is at most `classCount`,
the returned breaks are the distinct values in ascending order (a strictly
increasing list with the same members as the input, of length the distinct
count) padded with the maximum value up to `classCount + 1` entries; in
particular `[5, 5, 5]` with `classCount = 6` yields seven `5`s, and every
feature with value `5` then receives level `1`. -/
theorem c5_degenerate_padding (vals : List ℚ) (classCount : ℕ) (hne : vals ≠ [])
    (hu : vals.dedup.length ≤ classCount) :
    (∃ d M, List.Chain' (· < ·) d ∧ (∀ x, x ∈ d ↔ x ∈ vals) ∧
      d.length = vals.dedup.length ∧ M ∈ vals ∧ (∀ x ∈ vals, x ≤ M) ∧
      calculateNaturalBreaks (vals.map JSNum.fin) classCount
        = some (d ++ List.replicate (classCount + 1 - d.length) M)) ∧
    calculateNaturalBreaks [JSNum.fin 5, JSNum.fin 5, JSNum.fin 5] 6
      = some [5, 5, 5, 5, 5, 5, 5] ∧
    (∀ (features : List Feature) (j : ℕ), j < features.length →
      featureValue (features.getD j default) = JSNum.fin 5 →
      lookupProp ((assignLevelsToFeatures features [5, 5, 5, 5, 5, 5, 5]).getD j
          default).props "pride_level" = some (JSVal.num (JSNum.fin 1))) := by
  refine ⟨?_, ?_, ?_⟩
  · have hfm : (vals.map JSNum.fin).filterMap JSNum.toFinite = vals := by
      rw [List.filterMap_map]
      have hcomp : (JSNum.toFinite ∘ JSNum.fin) = some := rfl
      rw [hcomp, List.filterMap_some]
    have hulen := uniqueValuesOf_length_dedup vals
    set s := List.insertionSort (· ≤ ·) vals with hs_def
    have hperm : s.Perm vals := List.perm_insertionSort _ _
    have hsorted : List.Sorted (· ≤ ·) s := List.sorted_insertionSort _ _
    have hsne : s ≠ [] := by
      intro hc
      apply hne
      have hlen := hperm.length_eq
      rw [hc] at hlen
      exact List.eq_nil_of_length_eq_zero hlen.symm
    have hmapne : vals.map JSNum.fin ≠ [] := by
      intro hc
      exact hne (List.map_eq_nil_iff.mp hc)
    have hu' : (uniqueValuesOf s).length ≤ classCount := by rw [hulen]; exact hu
    obtain ⟨M, hMlast⟩ : ∃ M, s.getLast? = some M :=
      ⟨s.getLast hsne, List.getLast?_eq_getLast_of_ne_nil hsne⟩
    have hM_mem : M ∈ vals := by
      obtain ⟨hne2, hMeq⟩ := List.mem_getLast?_eq_getLast (Option.mem_def.mpr hMlast)
      exact hperm.mem_iff.mp (hMeq ▸ List.getLast_mem hne2)
    have hM_ge : ∀ x ∈ vals, x ≤ M := fun x hx =>
      pairwise_le_getLast s hsorted M hMlast x (hperm.mem_iff.mpr hx)
    have hdM : (uniqueValuesOf s).getD ((uniqueValuesOf s).length - 1) 0 = M :=
      getD_last_of_getLast? _ M (by rw [uniqueValuesOf_getLast? s, hMlast])
    refine ⟨uniqueValuesOf s, M, uniqueValuesOf_chain_lt s hsorted, ?_, hulen, hM_mem,
      hM_ge, ?_⟩
    · intro x
      rw [uniqueValuesOf_mem]
      exact hperm.mem_iff
    · unfold calculateNaturalBreaks
      rw [if_neg hmapne]
      simp only [hfm, ← hs_def]
      rw [if_neg hsne, if_pos hu', hdM]
  · norm_num [calculateNaturalBreaks, List.insertionSort, List.orderedInsert,
      JSNum.toFinite, uniqueValuesOf, List.replicate]
    exact ⟨by simp, by simp⟩
  · intro features j hj hval
    rw [assign_pride_lookup features _ j (by norm_num) hj, hval]
    norm_num [featureLevel, scanLevel, JSNum.gtZero, JSNum.geB, JSNum.leB]

theorem c5_degenerate_padding_witness :
    (∃ d M, List.Chain' (· < ·) d ∧ (∀ x, x ∈ d ↔ x ∈ [(5 : ℚ), 5, 5]) ∧
      d.length = [(5 : ℚ), 5, 5].dedup.length ∧ M ∈ [(5 : ℚ), 5, 5] ∧
      (∀ x ∈ [(5 : ℚ), 5, 5], x ≤ M) ∧
      calculateNaturalBreaks ([(5 : ℚ), 5, 5].map JSNum.fin) 6
        = some (d ++ List.replicate (6 + 1 - d.length) M)) ∧
    calculateNaturalBreaks [JSNum.fin 5, JSNum.fin 5, JSNum.fin 5] 6
      = some [5, 5, 5, 5, 5, 5, 5] ∧
    (∀ (features : List Feature) (j : ℕ), j < features.length →
      featureValue (features.getD j default) = JSNum.fin 5 →
      lookupProp ((assignLevelsToFeatures features [5, 5, 5, 5, 5, 5, 5]).getD j
          default).props "pride_level" = some (JSVal.num (JSNum.fin 1))) :=
  c5_degenerate_padding [(5 : ℚ), 5, 5] 6 (by decide) (by decide)

/-- C7: the equal-interval fallback of `ensureHexData2Levels` produces
exactly the values `min + (max - min) * i / classCount` for `i = 0..classCount`
— `classCount + 1` non-decreasing entries — and on the range `[10, 100]`
with `classCount = 3` it yields `[10, 40, 70, 100]`. -/
theorem c7_fallback_equal_interval (mn mx : ℚ) (classCount : ℕ) (hle : mn ≤ mx)
    (hK : 1 ≤ classCount) :
    fallbackBreaks mn mx classCount
      = (List.range (classCount + 1)).map
          (fun i : ℕ => mn + (mx - mn) * (i : ℚ) / (classCount : ℚ)) ∧
    (fallbackBreaks mn mx classCount).length = classCount + 1 ∧
    List.Chain' (· ≤ ·) (fallbackBreaks mn mx classCount) ∧
    fallbackBreaks 10 100 3 = [10, 40, 70, 100] := by
  have hK0 : (0 : ℚ) < (classCount : ℚ) := by
    have : 0 < classCount := hK
    exact_mod_cast this
  have h1 : fallbackBreaks mn mx classCount
      = (List.range (classCount + 1)).map
          (fun i : ℕ => mn + (mx - mn) * (i : ℚ) / (classCount : ℚ)) := by
    show (mn :: (List.range' 1 classCount).map
        (fun i : ℕ => mn + (mx - mn) / (classCount : ℚ) * (i : ℚ)))
      = (List.range (classCount + 1)).map
          (fun i : ℕ => mn + (mx - mn) * (i : ℚ) / (classCount : ℚ))
    rw [List.range_succ_eq_map, List.map_cons, List.range'_eq_map_range, List.map_map]
    congr 1
    · norm_num
    · rw [List.map_map]
      refine List.map_congr_left ?_
      intro x _
      simp only [Function.comp]
      push_cast
      ring
  refine ⟨h1, ?_, ?_, ?_⟩
  · unfold fallbackBreaks
    simp only [List.length_cons, List.length_map, List.length_range']
  · rw [h1]
    apply List.Pairwise.chain'
    refine List.Pairwise.map _ ?_ (List.pairwise_lt_range _)
    intro a b hab
    have hcast : (a : ℚ) ≤ (b : ℚ) := by exact_mod_cast le_of_lt hab
    have h2 : (mx - mn) * (a : ℚ) ≤ (mx - mn) * (b : ℚ) :=
      mul_le_mul_of_nonneg_left hcast (by linarith)
    exact add_le_add_left ((div_le_div_iff_of_pos_right hK0).mpr h2) mn
  · norm_num [fallbackBreaks, List.range']

theorem c7_fallback_equal_interval_witness :
    fallbackBreaks 10 100 3
      = (List.range (3 + 1)).map (fun i : ℕ => 10 + (100 - 10) * (i : ℚ) / ((3 : ℕ) : ℚ)) ∧
    (fallbackBreaks 10 100 3).length = 3 + 1 ∧
    List.Chain' (· ≤ ·) (fallbackBreaks 10 100 3) ∧
    fallbackBreaks 10 100 3 = [10, 40, 70, 100] :=
  c7_fallback_equal_interval 10 100 3 (by norm_num) (by norm_num)

/-! ### Concrete evaluation of the Jenks DP on `[1,2,3,10,11,12,50,51,52]` -/

lemma data9_sums :
    sumTable [(1 : ℚ), 2, 3, 10, 11, 12, 50, 51, 52] 0 = 0 ∧
    sumTable [(1 : ℚ), 2, 3, 10, 11, 12, 50, 51, 52] 1 = 1 ∧
    sumTable [(1 : ℚ), 2, 3, 10, 11, 12, 50, 51, 52] 2 = 3 ∧
    sumTable [(1 : ℚ), 2, 3, 10, 11, 12, 50, 51, 52] 3 = 6 ∧
    sumTable [(1 : ℚ), 2, 3, 10, 11, 12, 50, 51, 52] 4 = 16 ∧
    sumTable [(1 : ℚ), 2, 3, 10, 11, 12, 50, 51, 52] 5 = 27 ∧
    sumTable [(1 : ℚ), 2, 3, 10, 11, 12, 50, 51, 52] 6 = 39 ∧
    sumTable [(1 : ℚ), 2, 3, 10, 11, 12, 50, 51, 52] 7 = 89 ∧
    sumTable [(1 : ℚ), 2, 3, 10, 11, 12, 50, 51, 52] 8 = 140 ∧
    sumTable [(1 : ℚ), 2, 3, 10, 11, 12, 50, 51, 52] 9 = 192 ∧
    sumSquaresTable [(1 : ℚ), 2, 3, 10, 11, 12, 50, 51, 52] 0 = 0 ∧
    sumSquaresTable [(1 : ℚ), 2, 3, 10, 11, 12, 50, 51, 52] 1 = 1 ∧
    sumSquaresTable [(1 : ℚ), 2, 3, 10, 11, 12, 50, 51, 52] 2 = 5 ∧
    sumSquaresTable [(1 : ℚ), 2, 3, 10, 11, 12, 50, 51, 52] 3 = 14 ∧
    sumSquaresTable [(1 : ℚ), 2, 3, 10, 11, 12, 50, 51, 52] 4 = 114 ∧
    sumSquaresTable [(1 : ℚ), 2, 3, 10, 11, 12, 50, 51, 52] 5 = 235 ∧
    sumSquaresTable [(1 : ℚ), 2, 3, 10, 11, 12, 50, 51, 52] 6 = 379 ∧
    sumSquaresTable [(1 : ℚ), 2, 3, 10, 11, 12, 50, 51, 52] 7 = 2879 ∧
    sumSquaresTable [(1 : ℚ), 2, 3, 10, 11, 12, 50, 51, 52] 8 = 5480 ∧
    sumSquaresTable [(1 : ℚ), 2, 3, 10, 11, 12, 50, 51, 52] 9 = 8184 := by
  refine ⟨?_, ?_, ?_, ?_, ?_, ?_, ?_, ?_, ?_, ?_, ?_, ?_, ?_, ?_, ?_, ?_, ?_, ?_, ?_, ?_⟩ <;>
    norm_num [sumTable, sumSquaresTable, List.take]

lemma data9_col1 :
    jenksColumns [(1 : ℚ), 2, 3, 10, 11, 12, 50, 51, 52] 1 =
      ([.fin 0, .fin 0, .fin (1/2), .fin 2, .fin 50, .fin (446/5), .fin (251/2),
        .fin (12232/7), .fin 3030, .fin 4088],
       [0, 1, 1, 1, 1, 1, 1, 1, 1, 1]) := by
  norm_num [jenksColumns, data9_sums, List.range, List.range.loop]

lemma data9_col2 :
    jenksColumns [(1 : ℚ), 2, 3, 10, 11, 12, 50, 51, 52] 2 =
      ([.fin 0, .fin 0, .fin 0, .fin (1/2), .fin 2, .fin (5/2), .fin 4, .fin (251/2),
        .fin 126, .fin (255/2)],
       [0, 1, 2, 3, 4, 4, 4, 7, 7, 7]) := by
  norm_num [jenksColumns, data9_col1, jenksScan, data9_sums,
    List.range, List.range.loop, List.range', ExtQ.add, ExtQ.ltB,
    List.getD_cons_zero, List.getD_cons_succ]

lemma data9_col3 :
    jenksColumns [(1 : ℚ), 2, 3, 10, 11, 12, 50, 51, 52] 3 =
      ([.fin 0, .fin 0, .inf, .fin 0, .fin (1/2), .fin 1, .fin (5/2), .fin 4,
        .fin (9/2), .fin 6],
       [0, 1, 0, 3, 4, 4, 6, 7, 7, 7]) := by
  norm_num [jenksColumns, data9_col2, jenksScan, data9_sums,
    List.range, List.range.loop, List.range', ExtQ.add, ExtQ.ltB,
    List.getD_cons_zero, List.getD_cons_succ]

lemma data9_breaks_eq :
    calculateNaturalBreaks
      ([1, 2, 3, 10, 11, 12, 50, 51, 52].map (fun q : ℚ => JSNum.fin q)) 3
      = some [1, 10, 50, 52] := by
  norm_num [calculateNaturalBreaks, List.insertionSort, List.orderedInsert, JSNum.toFinite,
    data9_col2, data9_col3, uniqueValuesOf, jenksRawBreak, jenksBacktrackK,
    enforceNonDecreasing, clampFrom, List.range, List.range.loop,
    List.getD_cons_zero, List.getD_cons_succ]
  exact ⟨by simp, by simp⟩

/-- C2 counterexample: on the observations `[1,2,3,10,11,12,50,51,52]` with
`classCount = 3`, `calculateNaturalBreaks` does not return `[1, 3, 12, 52]`
(it returns `[1, 10, 50, 52]`: the backtracking records each class's lower
limit `sorted[idx - 1]`, not the previous class's maximum). -/
theorem c2_counterexample :
    calculateNaturalBreaks
      ([1, 2, 3, 10, 11, 12, 50, 51, 52].map (fun q : ℚ => JSNum.fin q)) 3
      ≠ some [1, 3, 12, 52] := by
  intro hc
  rw [data9_breaks_eq] at hc
  simp only [Option.some.injEq, List.cons.injEq] at hc
  norm_num at hc

/-- C2 (amended): the computation returns breaks `[1, 10, 50, 52]`, and level
assignment with those breaks gives the values `1, 2, 3, 10` level 1, the
values `11, 12, 50` level 2, and the values `51, 52` level 3. -/
theorem c2_end_to_end :
    calculateNaturalBreaks
      ([1, 2, 3, 10, 11, 12, 50, 51, 52].map (fun q : ℚ => JSNum.fin q)) 3
      = some [1, 10, 50, 52] ∧
    (∀ (features : List Feature) (j : ℕ) (q : ℚ), j < features.length →
      featureValue (features.getD j default) = JSNum.fin q →
      ((q = 1 ∨ q = 2 ∨ q = 3 ∨ q = 10) →
        lookupProp ((assignLevelsToFeatures features [1, 10, 50, 52]).getD j
            default).props "pride_level" = some (JSVal.num (JSNum.fin 1))) ∧
      ((q = 11 ∨ q = 12 ∨ q = 50) →
        lookupProp ((assignLevelsToFeatures features [1, 10, 50, 52]).getD j
            default).props "pride_level" = some (JSVal.num (JSNum.fin 2))) ∧
      ((q = 51 ∨ q = 52) →
        lookupProp ((assignLevelsToFeatures features [1, 10, 50, 52]).getD j
            default).props "pride_level" = some (JSVal.num (JSNum.fin 3)))) := by
  refine ⟨data9_breaks_eq, ?_⟩
  intro features j q hj hval
  refine ⟨?_, ?_, ?_⟩ <;> intro hq <;>
    rw [assign_pride_lookup features _ j (by norm_num) hj, hval]
  · rcases hq with rfl | rfl | rfl | rfl <;> decide
  · rcases hq with rfl | rfl | rfl <;> decide
  · rcases hq with rfl | rfl <;> decide

theorem c2_end_to_end_witness :
    lookupProp ((assignLevelsToFeatures [⟨[(targetKey, JSVal.num (JSNum.fin 10))]⟩]
        [1, 10, 50, 52]).getD 0 default).props "pride_level"
      = some (JSVal.num (JSNum.fin 1)) :=
  (c2_end_to_end.2 [⟨[(targetKey, JSVal.num (JSNum.fin 10))]⟩] 0 10 (by norm_num)
    (by decide)).1 (by norm_num)
